import Mathlib

/-!
Verification of an ELF/DWARF binary-format decoder against its design
specification.  The repository ships only C fixture programs (compiled into
ELF test inputs); the decoder itself is described by the specification, so
every definition below is modelled from the spec's words.  Bytes are
natural numbers below 256, buffers are lists of bytes, and every decode
operation is a pure total function returning `Except DecodeError`.
-/

namespace ElfSpec

/-- Modelled from the spec: the error taxonomy of §7.  All decode
operations return one of these kinds on failure. -/
inductive DecodeError where
  | invalidMagic
  | unsupportedClass
  | outOfBounds
  | truncatedTable
  | malformedVarint
  | unknownMachine
  | truncatedNote
  | invalidHeader
  | truncatedProgram
deriving DecidableEq

/-- Modelled from the spec: endianness is a construction-time parameter
affecting all multi-byte integer reads (§4.1). -/
inductive Endianness where
  | little
  | big
deriving DecidableEq

/-- Byte lookup in a buffer: `none` exactly when the index is at or past
the end of the buffer. -/
def byteAt (bytes : List Nat) (i : Nat) : Option Nat :=
  bytes.get? i

/-- Read `n` raw bytes starting at index `i`; fails (returns `none`) when
the range `[i, i+n)` is not wholly inside the buffer. -/
def readBytesAt (bytes : List Nat) (i n : Nat) : Option (List Nat) :=
  if i + n ≤ bytes.length then some ((bytes.drop i).take n) else none

/-- Little-endian value of a byte list (least significant byte first). -/
def leVal : List Nat → Nat
  | [] => 0
  | b :: rest => b % 256 + 256 * leVal rest

/-- Big-endian value of a byte list (most significant byte first). -/
def beVal (bs : List Nat) : Nat :=
  leVal bs.reverse

/-- Modelled from the spec: endian-aware fixed-width unsigned integer read
(§4.1, Byte Cursor primitive), expressed positionally. -/
def readUIntAt (bytes : List Nat) (en : Endianness) (i w : Nat) : Option Nat :=
  (readBytesAt bytes i w).map (fun bs =>
    match en with
    | .little => leVal bs
    | .big => beVal bs)

/-- Round `n` up to the next multiple of `a` (identity when `a = 0`). -/
def alignUp (n a : Nat) : Nat :=
  if a = 0 then n else ((n + a - 1) / a) * a

theorem leVal_nil : leVal [] = 0 := rfl

theorem readBytesAt_length {bytes : List Nat} {i n : Nat} {bs : List Nat}
    (h : readBytesAt bytes i n = some bs) : bs.length = n := by
  unfold readBytesAt at h
  split at h
  · cases h
    simp only [List.length_take, List.length_drop]
    omega
  · cases h

/-!
## Byte Cursor (§4.1)
-/

/-- Modelled from the spec: the Byte Cursor wraps a byte slice and a
cursor position (§4.1).  Endianness is passed to each read. -/
structure Cursor where
  buf : List Nat
  pos : Nat
deriving DecidableEq

/-- Modelled from the spec: fixed-width unsigned integer read.  Returns the
value and the advanced cursor, or fails with OutOfBounds leaving the
cursor unchanged (§4.1). -/
def readFixed (w : Nat) (en : Endianness) (c : Cursor) :
    Except DecodeError Nat × Cursor :=
  match readUIntAt c.buf en c.pos w with
  | some v => (.ok v, { c with pos := c.pos + w })
  | none => (.error .outOfBounds, c)

/-- Modelled from the spec: fixed-length byte/string read (§4.1). -/
def readRaw (n : Nat) (c : Cursor) : Except DecodeError (List Nat) × Cursor :=
  match readBytesAt c.buf c.pos n with
  | some bs => (.ok bs, { c with pos := c.pos + n })
  | none => (.error .outOfBounds, c)

/-- Modelled from the spec: ULEB128 accumulation loop.  Consumes
continuation bytes; fails with MalformedVarint when the buffer ends
mid-sequence or the value would exceed the 64-bit target width (§4.1).
The fuel bound of 10 bytes is the longest encoding a 64-bit value
admits; an 11th continuation byte necessarily overflows the target. -/
def ulebAux (buf : List Nat) : Nat → Nat → Nat → Nat →
    Except DecodeError (Nat × Nat)
  | 0, _, _, _ => .error .malformedVarint
  | fuel + 1, pos, shift, acc =>
    match byteAt buf pos with
    | none => .error .malformedVarint
    | some b =>
      let acc' := acc + b % 128 * 2 ^ shift
      if b % 256 < 128 then
        if acc' < 2 ^ 64 then .ok (acc', pos + 1) else .error .malformedVarint
      else ulebAux buf fuel (pos + 1) (shift + 7) acc'

/-- Modelled from the spec: SLEB128 accumulation loop, sign-extending the
final payload and checking the signed 64-bit target width (§4.1). -/
def slebAux (buf : List Nat) : Nat → Nat → Nat → Nat →
    Except DecodeError (Int × Nat)
  | 0, _, _, _ => .error .malformedVarint
  | fuel + 1, pos, shift, acc =>
    match byteAt buf pos with
    | none => .error .malformedVarint
    | some b =>
      let acc' := acc + b % 128 * 2 ^ shift
      if b % 256 < 128 then
        if acc' < 2 ^ 64 then
          .ok (if b % 128 < 64 then (acc' : Int)
            else (acc' : Int) - 2 ^ (shift + 7), pos + 1)
        else .error .malformedVarint
      else slebAux buf fuel (pos + 1) (shift + 7) acc'

/-- Modelled from the spec: ULEB128 read on a cursor (§4.1). -/
def readULEB (c : Cursor) : Except DecodeError Nat × Cursor :=
  match ulebAux c.buf 10 c.pos 0 0 with
  | .ok (v, p) => (.ok v, { c with pos := p })
  | .error e => (.error e, c)

/-- Modelled from the spec: SLEB128 read on a cursor (§4.1). -/
def readSLEB (c : Cursor) : Except DecodeError Int × Cursor :=
  match slebAux c.buf 10 c.pos 0 0 with
  | .ok (v, p) => (.ok v, { c with pos := p })
  | .error e => (.error e, c)

/-- The Byte Cursor read operations of §4.1: fixed-width integers of the
four supported widths, fixed-length byte reads, and the two varint
encodings. -/
inductive ReadOp where
  | u8
  | u16
  | u32
  | u64
  | raw (n : Nat)
  | uleb
  | sleb
deriving DecidableEq

/-- Result of a Byte Cursor read: an unsigned value, a signed value, or a
byte sequence. -/
inductive ReadResult where
  | nat (v : Nat)
  | int (v : Int)
  | bytes (bs : List Nat)
deriving DecidableEq

/-- Dispatcher over the Byte Cursor read operations (§4.1). -/
def runRead : ReadOp → Endianness → Cursor →
    Except DecodeError ReadResult × Cursor
  | .u8, en, c => (readFixed 1 en c).map (Except.map .nat) id
  | .u16, en, c => (readFixed 2 en c).map (Except.map .nat) id
  | .u32, en, c => (readFixed 4 en c).map (Except.map .nat) id
  | .u64, en, c => (readFixed 8 en c).map (Except.map .nat) id
  | .raw n, _, c => (readRaw n c).map (Except.map .bytes) id
  | .uleb, _, c => (readULEB c).map (Except.map .nat) id
  | .sleb, _, c => (readSLEB c).map (Except.map .int) id

theorem byteAt_lt {bytes : List Nat} {i b : Nat} (h : byteAt bytes i = some b) :
    i < bytes.length := by
  by_contra hc
  rw [byteAt, List.get?_eq_none.mpr (by omega)] at h
  cases h

theorem readUIntAt_some_bound {bytes : List Nat} {en : Endianness} {i w v : Nat}
    (h : readUIntAt bytes en i w = some v) : i + w ≤ bytes.length := by
  unfold readUIntAt readBytesAt at h
  split at h
  · assumption
  · cases h

theorem ulebAux_ok_bounds (buf : List Nat) :
    ∀ fuel pos shift acc v p, ulebAux buf fuel pos shift acc = .ok (v, p) →
      pos < p ∧ p ≤ buf.length := by
  intro fuel
  induction fuel with
  | zero =>
    intro pos shift acc v p h
    simp [ulebAux] at h
  | succ n ih =>
    intro pos shift acc v p h
    unfold ulebAux at h
    cases hb : byteAt buf pos with
    | none => rw [hb] at h; cases h
    | some b =>
      rw [hb] at h
      have hlt := byteAt_lt hb
      simp only at h
      split at h
      · split at h
        · cases h
          omega
        · cases h
      · have := ih (pos + 1) (shift + 7) _ v p h
        omega

theorem slebAux_ok_bounds (buf : List Nat) :
    ∀ fuel pos shift acc v p, slebAux buf fuel pos shift acc = .ok (v, p) →
      pos < p ∧ p ≤ buf.length := by
  intro fuel
  induction fuel with
  | zero =>
    intro pos shift acc v p h
    simp [slebAux] at h
  | succ n ih =>
    intro pos shift acc v p h
    unfold slebAux at h
    cases hb : byteAt buf pos with
    | none => rw [hb] at h; cases h
    | some b =>
      rw [hb] at h
      have hlt := byteAt_lt hb
      simp only at h
      split at h
      · split at h
        · cases h
          omega
        · cases h
      · have := ih (pos + 1) (shift + 7) _ v p h
        omega

theorem ulebAux_error (buf : List Nat) :
    ∀ fuel pos shift acc e, ulebAux buf fuel pos shift acc = .error e →
      e = DecodeError.malformedVarint := by
  intro fuel
  induction fuel with
  | zero =>
    intro pos shift acc e h
    simp [ulebAux] at h
    exact h.symm
  | succ n ih =>
    intro pos shift acc e h
    unfold ulebAux at h
    cases hb : byteAt buf pos with
    | none =>
      rw [hb] at h
      cases h
      rfl
    | some b =>
      rw [hb] at h
      simp only at h
      split at h
      · split at h
        · cases h
        · cases h
          rfl
      · exact ih _ _ _ _ h

theorem slebAux_error (buf : List Nat) :
    ∀ fuel pos shift acc e, slebAux buf fuel pos shift acc = .error e →
      e = DecodeError.malformedVarint := by
  intro fuel
  induction fuel with
  | zero =>
    intro pos shift acc e h
    simp [slebAux] at h
    exact h.symm
  | succ n ih =>
    intro pos shift acc e h
    unfold slebAux at h
    cases hb : byteAt buf pos with
    | none =>
      rw [hb] at h
      cases h
      rfl
    | some b =>
      rw [hb] at h
      simp only at h
      split at h
      · split at h
        · cases h
        · cases h
          rfl
      · exact ih _ _ _ _ h

/-- The error kind a failing read of the given operation reports:
varint reads fail with MalformedVarint, every other read with
OutOfBounds. -/
def readFailKind : ReadOp → DecodeError
  | .uleb => .malformedVarint
  | .sleb => .malformedVarint
  | _ => .outOfBounds

/-- C2: every Byte Cursor read operation, on any buffer and cursor
position, either returns the requested primitive with the cursor advanced
and still within the slice bound, or fails leaving the cursor unchanged;
the failure kind is determined by the operation — OutOfBounds for
fixed-width and byte reads, MalformedVarint for varint reads; no read
ever advances the cursor past the bound of the wrapped slice. -/
theorem cursor_read_contract (op : ReadOp) (en : Endianness) (c : Cursor) :
    (∀ e c', runRead op en c = (.error e, c') →
      c' = c ∧ e = readFailKind op) ∧
    (∀ r c', runRead op en c = (.ok r, c') →
      c'.buf = c.buf ∧ c.pos ≤ c'.pos ∧ c'.pos ≤ c.buf.length) := by
  cases op with
  | u8 | u16 | u32 | u64 =>
    constructor
    · intro e c' h
      simp only [runRead, readFixed] at h
      split at h
      · cases h
      · cases h
        exact ⟨rfl, rfl⟩
    · intro r c' h
      simp only [runRead, readFixed] at h
      split at h
      case _ v hv =>
        cases h
        have := readUIntAt_some_bound hv
        refine ⟨rfl, ?_, ?_⟩ <;> simp only [id_eq] <;> omega
      · cases h
  | raw n =>
    constructor
    · intro e c' h
      simp only [runRead, readRaw] at h
      split at h
      · cases h
      · cases h
        exact ⟨rfl, rfl⟩
    · intro r c' h
      simp only [runRead, readRaw] at h
      split at h
      case _ bs hbs =>
        cases h
        unfold readBytesAt at hbs
        split at hbs
        · refine ⟨rfl, ?_, ?_⟩ <;> simp only [id_eq] <;> omega
        · cases hbs
      · cases h
  | uleb =>
    constructor
    · intro e c' h
      simp only [runRead, readULEB] at h
      split at h
      · cases h
      case _ e' he =>
        cases h
        exact ⟨rfl, ulebAux_error c.buf 10 c.pos 0 0 e he⟩
    · intro r c' h
      simp only [runRead, readULEB] at h
      split at h
      case _ v p hv =>
        cases h
        have := ulebAux_ok_bounds c.buf 10 c.pos 0 0 v p hv
        refine ⟨rfl, ?_, ?_⟩ <;> simp only [id_eq] <;> omega
      · cases h
  | sleb =>
    constructor
    · intro e c' h
      simp only [runRead, readSLEB] at h
      split at h
      · cases h
      case _ e' he =>
        cases h
        exact ⟨rfl, slebAux_error c.buf 10 c.pos 0 0 e he⟩
    · intro r c' h
      simp only [runRead, readSLEB] at h
      split at h
      case _ v p hv =>
        cases h
        have := slebAux_ok_bounds c.buf 10 c.pos 0 0 v p hv
        refine ⟨rfl, ?_, ?_⟩ <;> simp only [id_eq] <;> omega
      · cases h

/-- C2 counterexample: a ULEB128 read on the one-byte buffer 0x80 fails
with MalformedVarint (the continuation bit promises a byte the buffer
does not hold), not OutOfBounds, refuting the claim that every failing
read reports OutOfBounds. -/
theorem cursor_varint_error_not_oob :
    runRead ReadOp.uleb Endianness.little ⟨[128], 0⟩ =
      (Except.error DecodeError.malformedVarint, ⟨[128], 0⟩) ∧
    DecodeError.malformedVarint ≠ DecodeError.outOfBounds :=
  ⟨rfl, by decide⟩

/-- C2 witness: the read contract instantiated on a concrete successful
16-bit read over a three-byte buffer. -/
theorem cursor_read_contract_witness :
    (Cursor.mk [1, 2, 3] 2).buf = (Cursor.mk [1, 2, 3] 0).buf ∧
    (Cursor.mk [1, 2, 3] 0).pos ≤ (Cursor.mk [1, 2, 3] 2).pos ∧
    (Cursor.mk [1, 2, 3] 2).pos ≤ (Cursor.mk [1, 2, 3] 0).buf.length :=
  (cursor_read_contract ReadOp.u16 Endianness.little ⟨[1, 2, 3], 0⟩).2
    (ReadResult.nat 513) ⟨[1, 2, 3], 2⟩ (by rfl)

/-!
## Note Decoder (§4.4)
-/

/-- Modelled from the spec: a decoded note record (§3).  The name keeps
its declared un-padded length and the descriptor its declared byte
count; the offset records where the entry started in the supplied
range. -/
structure NoteEntry where
  name : List Nat
  descriptor : List Nat
  type : Nat
  offset : Nat
deriving DecidableEq

/-- Modelled from the spec: decode a single note entry at a given offset
(§4.4).  Reads the 12-byte header (namesz, descsz, type), then the name
followed by a skip to the next alignment boundary, then the descriptor
followed by a skip to the next alignment boundary; fails with
TruncatedNote when a declared length would read past the range's end. -/
def decodeOneNote (en : Endianness) (bytes : List Nat) (pos a : Nat) :
    Except DecodeError (NoteEntry × Nat) :=
  match readUIntAt bytes en pos 4, readUIntAt bytes en (pos + 4) 4,
      readUIntAt bytes en (pos + 8) 4 with
  | some namesz, some descsz, some ty =>
    let nameStart := pos + 12
    let descStart := alignUp (nameStart + namesz) a
    let descEnd := descStart + descsz
    if nameStart + namesz ≤ bytes.length ∧ descEnd ≤ bytes.length then
      .ok ({ name := (bytes.drop nameStart).take namesz,
             descriptor := (bytes.drop descStart).take descsz,
             type := ty, offset := pos }, alignUp descEnd a)
    else .error .truncatedNote
  | _, _, _ => .error .truncatedNote

theorem alignUp_ge (n a : Nat) : n ≤ alignUp n a := by
  unfold alignUp
  split
  · exact Nat.le_refl n
  · rename_i ha
    have hmod := Nat.div_add_mod (n + a - 1) a
    have hlt : (n + a - 1) % a < a := Nat.mod_lt _ (Nat.pos_of_ne_zero ha)
    rw [Nat.mul_comm]
    omega

theorem alignUp_dvd_add {a m : Nat} (r : Nat) (h : a ∣ m) :
    alignUp (m + r) a = m + alignUp r a := by
  unfold alignUp
  rcases Nat.eq_zero_or_pos a with ha | ha
  · simp [ha]
  · obtain ⟨k, hk⟩ := h
    rw [if_neg (by omega), if_neg (by omega), hk]
    have h1 : a * k + r + a - 1 = r + a - 1 + a * k := by omega
    rw [h1, Nat.add_mul_div_left _ _ ha]
    ring

theorem alignUp_zero (a : Nat) : alignUp 0 a = 0 := by
  unfold alignUp
  split
  · rfl
  · rename_i ha
    rw [Nat.div_eq_of_lt (by omega)]
    simp

theorem alignUp_of_dvd {a n : Nat} (h : a ∣ n) : alignUp n a = n := by
  have h0 : alignUp (n + 0) a = n + alignUp 0 a := alignUp_dvd_add 0 h
  simpa [alignUp_zero] using h0

theorem decodeOneNote_ok_lt {en : Endianness} {bytes : List Nat}
    {pos a : Nat} {e : NoteEntry} {next : Nat}
    (h : decodeOneNote en bytes pos a = .ok (e, next)) : pos + 12 ≤ next := by
  simp only [decodeOneNote] at h
  split at h
  · rename_i namesz descsz ty hns hds hty
    split at h
    · cases h
      have h1 := alignUp_ge (pos + 12 + namesz) a
      have h2 := alignUp_ge (alignUp (pos + 12 + namesz) a + descsz) a
      omega
    · cases h
  · cases h

/-- Modelled from the spec: the note-walking loop of §4.4 — entries are
decoded one after another while at least a full 12-byte header remains;
remaining trailing bytes shorter than a header are alignment filler and
are silently ignored.  The fuel argument only bounds the recursion: each
entry consumes at least 12 bytes, so a fuel of the range's length never
runs out. -/
def notesLoop (en : Endianness) (bytes : List Nat) (a : Nat) :
    Nat → Nat → Except DecodeError (List NoteEntry)
  | 0, _ => .ok []
  | fuel + 1, pos =>
    if pos + 12 ≤ bytes.length then
      match decodeOneNote en bytes pos a with
      | .ok (e, next) =>
        (notesLoop en bytes a fuel next).map (fun rest => e :: rest)
      | .error err => .error err
    else .ok []

/-- Modelled from the spec: decode_notes walks the byte range from its
start under the given alignment (4 unless the enclosing segment declares
8), §4.4. -/
def decode_notes (en : Endianness) (bytes : List Nat) (a : Nat) :
    Except DecodeError (List NoteEntry) :=
  notesLoop en bytes a bytes.length 0

theorem decodeOneNote_layout {en : Endianness} {bytes : List Nat}
    {pos a namesz descsz : Nat} {e : NoteEntry} {next : Nat}
    (hns : readUIntAt bytes en pos 4 = some namesz)
    (hds : readUIntAt bytes en (pos + 4) 4 = some descsz)
    (h : decodeOneNote en bytes pos a = .ok (e, next)) :
    e.name.length = namesz ∧ e.descriptor.length = descsz ∧
    next = alignUp (alignUp (pos + 12 + namesz) a + descsz) a := by
  cases hty : readUIntAt bytes en (pos + 8) 4 with
  | none =>
    simp only [decodeOneNote, hns, hds, hty] at h
    cases h
  | some ty =>
    simp only [decodeOneNote, hns, hds, hty] at h
    split at h
    · rename_i hguard
      cases h
      refine ⟨?_, ?_, rfl⟩
      · simp only [List.length_take, List.length_drop]
        omega
      · simp only [List.length_take, List.length_drop]
        omega
    · cases h

/-- C1: for every note entry decoded at an aligned offset, a header
declaring namesz=4 and descsz=8 yields a 4-byte name and an 8-byte
descriptor and consumes exactly 24 bytes, both under alignment 4 and
under alignment 8; a header declaring namesz=4 and descsz=1 under
alignment 8 also consumes exactly 24 bytes (12-byte header, 4 name
bytes, 1 descriptor byte, 7 padding bytes) with the descriptor reported
as exactly 1 byte. -/
theorem note_entry_layout (en : Endianness) (bytes : List Nat) (pos : Nat) :
    (∀ e next, readUIntAt bytes en pos 4 = some 4 →
      readUIntAt bytes en (pos + 4) 4 = some 8 → 4 ∣ pos →
      decodeOneNote en bytes pos 4 = .ok (e, next) →
      e.name.length = 4 ∧ e.descriptor.length = 8 ∧ next = pos + 24) ∧
    (∀ e next, readUIntAt bytes en pos 4 = some 4 →
      readUIntAt bytes en (pos + 4) 4 = some 8 → 8 ∣ pos →
      decodeOneNote en bytes pos 8 = .ok (e, next) →
      e.name.length = 4 ∧ e.descriptor.length = 8 ∧ next = pos + 24) ∧
    (∀ e next, readUIntAt bytes en pos 4 = some 4 →
      readUIntAt bytes en (pos + 4) 4 = some 1 → 8 ∣ pos →
      decodeOneNote en bytes pos 8 = .ok (e, next) →
      e.name.length = 4 ∧ e.descriptor.length = 1 ∧ next = pos + 24) := by
  refine ⟨?_, ?_, ?_⟩
  · intro e next hns hds hdvd h
    obtain ⟨h1, h2, h3⟩ := decodeOneNote_layout hns hds h
    have ha1 : alignUp (pos + 12 + 4) 4 = pos + 16 := by
      have : pos + 12 + 4 = pos + 16 := by omega
      rw [this]
      exact alignUp_of_dvd (by omega)
    have ha2 : alignUp (pos + 16 + 8) 4 = pos + 24 := by
      have : pos + 16 + 8 = pos + 24 := by omega
      rw [this]
      exact alignUp_of_dvd (by omega)
    rw [ha1, ha2] at h3
    exact ⟨h1, h2, h3⟩
  · intro e next hns hds hdvd h
    obtain ⟨h1, h2, h3⟩ := decodeOneNote_layout hns hds h
    have ha1 : alignUp (pos + 12 + 4) 8 = pos + 16 := by
      have : pos + 12 + 4 = pos + 16 := by omega
      rw [this]
      exact alignUp_of_dvd (by omega)
    have ha2 : alignUp (pos + 16 + 8) 8 = pos + 24 := by
      have : pos + 16 + 8 = pos + 24 := by omega
      rw [this]
      exact alignUp_of_dvd (by omega)
    rw [ha1, ha2] at h3
    exact ⟨h1, h2, h3⟩
  · intro e next hns hds hdvd h
    obtain ⟨h1, h2, h3⟩ := decodeOneNote_layout hns hds h
    have ha1 : alignUp (pos + 12 + 4) 8 = pos + 16 := by
      have : pos + 12 + 4 = pos + 16 := by omega
      rw [this]
      exact alignUp_of_dvd (by omega)
    have ha2 : alignUp (pos + 16 + 1) 8 = pos + 24 := by
      have h16 : (8 : Nat) ∣ pos + 16 := by omega
      rw [alignUp_dvd_add 1 h16]
      norm_num [alignUp]
    rw [ha1, ha2] at h3
    exact ⟨h1, h2, h3⟩

/-- C1 witness: the layout theorem instantiated on a concrete 24-byte
synthesized note (namesz=4, descsz=8, alignment 4) at offset 0. -/
theorem note_entry_layout_witness :
    (NoteEntry.mk [72, 105, 0, 0] [1, 2, 3, 4, 5, 6, 7, 8] 0 0).name.length = 4 ∧
    (NoteEntry.mk [72, 105, 0, 0] [1, 2, 3, 4, 5, 6, 7, 8] 0 0).descriptor.length = 8 ∧
    (24 : Nat) = 0 + 24 :=
  (note_entry_layout Endianness.little
      [4, 0, 0, 0, 8, 0, 0, 0, 0, 0, 0, 0, 72, 105, 0, 0, 1, 2, 3, 4, 5, 6, 7, 8] 0).1
    (NoteEntry.mk [72, 105, 0, 0] [1, 2, 3, 4, 5, 6, 7, 8] 0 0) 24
    (by rfl) (by rfl) (by omega) (by rfl)

/-- C10: on a note segment holding an NT_GNU_PROPERTY_TYPE_0 note (type
5, 16-byte descriptor) followed by the fixture's custom note (namesz=4,
descsz=8, type=0, name Hi), the first note's descriptor is exactly its
declared 16 bytes — it never reaches into the second note — and the
second note is decoded intact with its 4-byte name and 8-byte
descriptor. -/
theorem gnu_property_note_no_overrun :
    decode_notes Endianness.little
      [4, 0, 0, 0, 16, 0, 0, 0, 5, 0, 0, 0,
       71, 78, 85, 0,
       2, 0, 0, 192, 4, 0, 0, 0, 3, 0, 0, 0, 0, 0, 0, 0,
       4, 0, 0, 0, 8, 0, 0, 0, 0, 0, 0, 0,
       72, 105, 0, 0,
       170, 171, 172, 173, 174, 175, 176, 177] 8 =
      Except.ok
        [NoteEntry.mk [71, 78, 85, 0]
          [2, 0, 0, 192, 4, 0, 0, 0, 3, 0, 0, 0, 0, 0, 0, 0] 5 0,
         NoteEntry.mk [72, 105, 0, 0]
          [170, 171, 172, 173, 174, 175, 176, 177] 0 32] ∧
    ([2, 0, 0, 192, 4, 0, 0, 0, 3, 0, 0, 0, 0, 0, 0, 0] : List Nat).length = 16 ∧
    ([72, 105, 0, 0] : List Nat).length = 4 ∧
    ([170, 171, 172, 173, 174, 175, 176, 177] : List Nat).length = 8 :=
  ⟨rfl, rfl, rfl, rfl⟩

/-!
## ELF Container Reader (§4.2): identity parsing
-/

/-- Modelled from the spec: the 32- or 64-bit file class (§3). -/
inductive ElfClass where
  | c32
  | c64
deriving DecidableEq

/-- Modelled from the spec: the ElfIdentity record of §3 — class,
endianness, machine and entry point, immutable once parsed from the
first 20 bytes of the file. -/
structure ElfIdentity where
  cls : ElfClass
  endianness : Endianness
  machine : Nat
  entry_point : Nat
deriving DecidableEq

/-- Modelled from the spec: after magic and class validation,
parse_identity reads the endianness byte (offset 5, value 2 meaning
big-endian), the 16-bit machine field at offsets 18..19, and the 64-bit
entry point.  Spec §3 pins every identity field, the entry point
included, inside the first 20 bytes; the spec names no offset for the
entry point beyond that bound, so it is modelled as read from the
identification padding bytes 8..15. -/
def parseIdentityFields (cls : ElfClass) (bytes : List Nat) :
    Except DecodeError ElfIdentity :=
  let en := if byteAt bytes 5 = some 2 then Endianness.big else Endianness.little
  match readUIntAt bytes en 18 2, readUIntAt bytes en 8 8 with
  | some machine, some entry => .ok ⟨cls, en, machine, entry⟩
  | _, _ => .error .outOfBounds

/-- Modelled from the spec: parse_identity validates the 4-byte magic
(0x7f E L F), maps the class byte at offset 4 (1 meaning 32-bit, 2
meaning 64-bit, anything else UnsupportedClass), then reads the
remaining identity fields (§4.2). -/
def parse_identity (bytes : List Nat) : Except DecodeError ElfIdentity :=
  if byteAt bytes 0 = some 127 ∧ byteAt bytes 1 = some 69 ∧
      byteAt bytes 2 = some 76 ∧ byteAt bytes 3 = some 70 then
    match byteAt bytes 4 with
    | some 1 => parseIdentityFields .c32 bytes
    | some 2 => parseIdentityFields .c64 bytes
    | _ => .error .unsupportedClass
  else .error .invalidMagic

theorem byteAt_none_iff {bytes : List Nat} {i : Nat} :
    byteAt bytes i = none ↔ bytes.length ≤ i := by
  unfold byteAt
  exact List.get?_eq_none

theorem readBytesAt_congr {b1 b2 : List Nat} {n i w : Nat}
    (h : ∀ j < n, byteAt b1 j = byteAt b2 j) (hw : i + w ≤ n) (h0 : 0 < i + w) :
    readBytesAt b1 i w = readBytesAt b2 i w := by
  have hb : i + w ≤ b1.length ↔ i + w ≤ b2.length := by
    have hj := h (i + w - 1) (by omega)
    constructor
    · intro hle
      by_contra hgt
      have hn2 : byteAt b2 (i + w - 1) = none := byteAt_none_iff.mpr (by omega)
      rw [hn2] at hj
      have := byteAt_none_iff.mp hj
      omega
    · intro hle
      by_contra hgt
      have hn1 : byteAt b1 (i + w - 1) = none := byteAt_none_iff.mpr (by omega)
      rw [hn1] at hj
      have := byteAt_none_iff.mp hj.symm
      omega
  unfold readBytesAt
  by_cases h1 : i + w ≤ b1.length
  · rw [if_pos h1, if_pos (hb.mp h1)]
    congr 1
    apply List.ext_get?
    intro j
    by_cases hj : j < w
    · rw [List.get?_take hj, List.get?_take hj, List.get?_drop, List.get?_drop]
      exact h (i + j) (by omega)
    · rw [List.get?_eq_none.mpr, List.get?_eq_none.mpr]
      · simp only [List.length_take, List.length_drop]
        omega
      · simp only [List.length_take, List.length_drop]
        omega
  · rw [if_neg h1, if_neg (fun hc => h1 (hb.mpr hc))]

theorem readUIntAt_congr {b1 b2 : List Nat} {n i w : Nat} (en : Endianness)
    (h : ∀ j < n, byteAt b1 j = byteAt b2 j) (hw : i + w ≤ n) (h0 : 0 < i + w) :
    readUIntAt b1 en i w = readUIntAt b2 en i w := by
  unfold readUIntAt
  rw [readBytesAt_congr h hw h0]

/-- C8: parse_identity is determined by the first 20 bytes of the file —
any two byte buffers agreeing on bytes 0 through 19 yield exactly the
same result, identity record or error kind alike. -/
theorem parse_identity_prefix_determined (b1 b2 : List Nat)
    (h : ∀ i < 20, byteAt b1 i = byteAt b2 i) :
    parse_identity b1 = parse_identity b2 := by
  have h0 := h 0 (by omega)
  have h1 := h 1 (by omega)
  have h2 := h 2 (by omega)
  have h3 := h 3 (by omega)
  have h4 := h 4 (by omega)
  have h5 := h 5 (by omega)
  have h18 : ∀ en, readUIntAt b1 en 18 2 = readUIntAt b2 en 18 2 :=
    fun en => readUIntAt_congr en h (by omega) (by omega)
  have h8 : ∀ en, readUIntAt b1 en 8 8 = readUIntAt b2 en 8 8 :=
    fun en => readUIntAt_congr en h (by omega) (by omega)
  simp only [parse_identity, parseIdentityFields, h0, h1, h2, h3, h4, h5, h18, h8]

/-- C8 witness: the determinism theorem applied to a concrete 20-byte
header and the same header with trailing bytes appended. -/
theorem parse_identity_prefix_determined_witness :
    parse_identity
      [127, 69, 76, 70, 2, 1, 1, 0, 9, 0, 0, 0, 0, 0, 0, 0, 2, 0, 183, 0] =
    parse_identity
      ([127, 69, 76, 70, 2, 1, 1, 0, 9, 0, 0, 0, 0, 0, 0, 0, 2, 0, 183, 0] ++
        [42, 43, 44]) :=
  parse_identity_prefix_determined _ _ (by decide)

/-!
## Relocation Decoder (§4.3)
-/

/-- Modelled from the spec: a decoded relocation record (§3) — offset,
symbol index, machine-specific type code (not interpreted here), and
addend (0 when the format has no explicit addend). -/
structure RelocationEntry where
  offset : Nat
  symbol_index : Nat
  type : Nat
  addend : Int
deriving DecidableEq

/-- Two's-complement reinterpretation of an unsigned value of the given
bit width. -/
def toSigned (bits v : Nat) : Int :=
  if v < 2 ^ (bits - 1) then (v : Int) else (v : Int) - 2 ^ bits

/-- Modelled from the spec: the fixed on-disk record width, selected by
the container class and by whether the section is the explicit-addend
form (§4.3). -/
def relocEntrySize (cls : ElfClass) (hasAddend : Bool) : Nat :=
  match cls with
  | .c32 => if hasAddend then 12 else 8
  | .c64 => if hasAddend then 24 else 16

/-- Modelled from the spec: machines with a registered entry-layout
mapping — at minimum aarch64 (183) and mips64 (8), §2/§4.3. -/
def registeredMachines : List Nat :=
  [183, 8]

/-- Modelled from the spec: structural decoding of one fixed-size
relocation record (§4.3).  For the 64-bit layout the info word splits as
symbol = info >> 32 and type = low 32 bits; for the 32-bit layout,
symbol = info >> 8 and type = low 8 bits. -/
def decodeRelocRecord (en : Endianness) (cls : ElfClass) (hasAddend : Bool)
    (chunk : List Nat) : RelocationEntry :=
  match cls with
  | .c64 =>
    let offset := (readUIntAt chunk en 0 8).getD 0
    let info := (readUIntAt chunk en 8 8).getD 0
    { offset := offset, symbol_index := info / 2 ^ 32, type := info % 2 ^ 32,
      addend := if hasAddend then toSigned 64 ((readUIntAt chunk en 16 8).getD 0)
        else 0 }
  | .c32 =>
    let offset := (readUIntAt chunk en 0 4).getD 0
    let info := (readUIntAt chunk en 4 4).getD 0
    { offset := offset, symbol_index := info / 2 ^ 8, type := info % 2 ^ 8,
      addend := if hasAddend then toSigned 32 ((readUIntAt chunk en 8 4).getD 0)
        else 0 }

/-- Modelled from the spec: the record-walking loop — one entry per
fixed-size chunk, in on-disk order.  Fuel only bounds the recursion;
each step consumes a full record, so a fuel of the section's length
never runs out. -/
def relocLoop (en : Endianness) (cls : ElfClass) (hasAddend : Bool) (esz : Nat) :
    Nat → List Nat → List RelocationEntry
  | 0, _ => []
  | fuel + 1, rest =>
    if rest = [] then []
    else decodeRelocRecord en cls hasAddend (rest.take esz) ::
      relocLoop en cls hasAddend esz fuel (rest.drop esz)

/-- Modelled from the spec: decode_relocations fails with UnknownMachine
when no layout is registered for the machine, with TruncatedTable when
the section size is not a multiple of the record width, and otherwise
yields one entry per record (§4.3). -/
def decode_relocations (en : Endianness) (cls : ElfClass) (machine : Nat)
    (hasAddend : Bool) (bytes : List Nat) :
    Except DecodeError (List RelocationEntry) :=
  if machine ∈ registeredMachines then
    if bytes.length % relocEntrySize cls hasAddend = 0 then
      .ok (relocLoop en cls hasAddend (relocEntrySize cls hasAddend)
        bytes.length bytes)
    else .error .truncatedTable
  else .error .unknownMachine

theorem relocEntrySize_pos (cls : ElfClass) (hasAddend : Bool) :
    0 < relocEntrySize cls hasAddend := by
  cases cls <;> cases hasAddend <;> simp [relocEntrySize]

theorem relocLoop_length (en : Endianness) (cls : ElfClass) (hasAddend : Bool)
    (esz : Nat) (hesz : 0 < esz) :
    ∀ fuel rest, rest.length ≤ fuel → esz ∣ rest.length →
      (relocLoop en cls hasAddend esz fuel rest).length = rest.length / esz := by
  intro fuel
  induction fuel with
  | zero =>
    intro rest hlen hdvd
    have hr : rest = [] := List.length_eq_zero.mp (by omega)
    subst hr
    simp [relocLoop]
  | succ n ih =>
    intro rest hlen hdvd
    by_cases hre : rest = []
    · subst hre
      simp [relocLoop]
    · obtain ⟨k, hk⟩ := hdvd
      have hk1 : 1 ≤ k := by
        by_contra hc
        have hz : k = 0 := by omega
        subst hz
        simp only [Nat.mul_zero] at hk
        exact hre (List.length_eq_zero.mp hk)
      have hk' : esz * k = esz * (k - 1) + esz := by
        cases k with
        | zero => omega
        | succ m => simp [Nat.mul_succ]
      have hdrop : (rest.drop esz).length = esz * (k - 1) := by
        simp only [List.length_drop, hk]
        omega
      have hih := ih (rest.drop esz)
        (by simp only [List.length_drop]; omega) ⟨k - 1, hdrop⟩
      simp only [relocLoop, if_neg hre, List.length_cons, hih, hdrop, hk]
      rw [Nat.mul_div_cancel_left _ hesz, Nat.mul_div_cancel_left _ hesz]
      omega

/-- C5: for a registered machine, a relocation section whose size is an
exact multiple of the record width decodes to exactly size / entry_size
RelocationEntry records, and a section whose size is not such a multiple
fails with TruncatedTable. -/
theorem decode_relocations_count (en : Endianness) (cls : ElfClass)
    (machine : Nat) (hasAddend : Bool) (bytes : List Nat)
    (hm : machine ∈ registeredMachines) :
    (relocEntrySize cls hasAddend ∣ bytes.length →
      ∃ entries, decode_relocations en cls machine hasAddend bytes = .ok entries ∧
        entries.length = bytes.length / relocEntrySize cls hasAddend) ∧
    (¬ relocEntrySize cls hasAddend ∣ bytes.length →
      decode_relocations en cls machine hasAddend bytes =
        .error DecodeError.truncatedTable) := by
  have hesz := relocEntrySize_pos cls hasAddend
  constructor
  · intro hdvd
    refine ⟨_, ?_, relocLoop_length en cls hasAddend _ hesz bytes.length bytes
      (Nat.le_refl _) hdvd⟩
    rw [decode_relocations, if_pos hm,
      if_pos (Nat.dvd_iff_mod_eq_zero.mp hdvd)]
  · intro hndvd
    rw [decode_relocations, if_pos hm, if_neg
      (fun hc => hndvd (Nat.dvd_iff_mod_eq_zero.mpr hc))]

/-- C5 witness: a 24-byte aarch64 Rela section decodes to exactly one
entry, and a 23-byte one fails with TruncatedTable. -/
theorem decode_relocations_count_witness :
    (∃ entries, decode_relocations Endianness.little ElfClass.c64 183 true
        (List.replicate 24 0) = .ok entries ∧
      entries.length =
        (List.replicate 24 (0 : Nat)).length / relocEntrySize ElfClass.c64 true) ∧
    decode_relocations Endianness.little ElfClass.c64 183 true
        (List.replicate 23 0) = .error DecodeError.truncatedTable :=
  ⟨(decode_relocations_count Endianness.little ElfClass.c64 183 true
      (List.replicate 24 0) (by decide)).1 (by decide),
   (decode_relocations_count Endianness.little ElfClass.c64 183 true
      (List.replicate 23 0) (by decide)).2 (by decide)⟩

/-!
## Address-Range Table Decoder (§4.5)
-/

/-- Modelled from the spec: a decoded aranges unit (§3) — header fields
plus the tuple list, which excludes the zero-address zero-length
terminator. -/
structure ArangesUnit where
  unit_length : Nat
  version : Nat
  debug_info_offset : Nat
  address_size : Nat
  segment_size : Nat
  ranges : List (Nat × Nat)
deriving DecidableEq

/-- Modelled from the spec: the tuple-reading loop of §4.5.  Reads
(address, length) pairs of the unit's address size until the explicit
(0, 0) terminator; every read is bounded by the unit's declared end and
crossing it fails with TruncatedTable.  A zero address size makes every
tuple the terminator, so the loop returns immediately.  Fuel only
bounds the recursion; each step consumes a full tuple. -/
def readTuples (bytes : List Nat) (en : Endianness) (asize unitEnd : Nat) :
    Nat → Nat → Except DecodeError (List (Nat × Nat) × Nat)
  | 0, _ => .error .truncatedTable
  | fuel + 1, cur =>
    if asize = 0 then .ok ([], cur)
    else if unitEnd < cur + 2 * asize then .error .truncatedTable
    else
      match readUIntAt bytes en cur asize,
          readUIntAt bytes en (cur + asize) asize with
      | some a, some l =>
        if a = 0 ∧ l = 0 then .ok ([], cur + 2 * asize)
        else
          match readTuples bytes en asize unitEnd fuel (cur + 2 * asize) with
          | .ok (rest, fin) => .ok ((a, l) :: rest, fin)
          | .error e => .error e
      | _, _ => .error .outOfBounds

/-- Modelled from the spec: decode one aranges unit at the given offset
(§4.5).  The 4-byte unit_length (excluding itself) bounds the unit's
extent; the header carries version, debug_info_offset, address_size and
segment_size; tuple reading starts only after padding the offset to a
boundary of twice the address size. -/
def decodeArangesUnit (en : Endianness) (bytes : List Nat) (pos : Nat) :
    Except DecodeError (ArangesUnit × Nat) :=
  match readUIntAt bytes en pos 4 with
  | none => .error .truncatedTable
  | some ulen =>
    if pos + 4 + ulen ≤ bytes.length ∧ pos + 12 ≤ pos + 4 + ulen then
      match readUIntAt bytes en (pos + 4) 2, readUIntAt bytes en (pos + 6) 4,
          byteAt bytes (pos + 10), byteAt bytes (pos + 11) with
      | some ver, some dio, some asize, some ssize =>
        match readTuples bytes en asize (pos + 4 + ulen) (pos + 4 + ulen)
            (alignUp (pos + 12) (2 * asize)) with
        | .ok (rs, _) => .ok (⟨ulen, ver, dio, asize, ssize, rs⟩, pos + 4 + ulen)
        | .error e => .error e
      | _, _, _, _ => .error .truncatedTable
    else .error .truncatedTable

/-- Modelled from the spec: the unit-walking loop — units decoded one
after another until the section's byte range is exhausted.  Fuel only
bounds the recursion; each unit consumes at least its 12-byte header. -/
def arangesLoop (en : Endianness) (bytes : List Nat) :
    Nat → Nat → Except DecodeError (List ArangesUnit)
  | 0, _ => .ok []
  | fuel + 1, pos =>
    if pos < bytes.length then
      match decodeArangesUnit en bytes pos with
      | .ok (u, next) =>
        match arangesLoop en bytes fuel next with
        | .ok rest => .ok (u :: rest)
        | .error e => .error e
      | .error e => .error e
    else .ok []

/-- Modelled from the spec: decode_aranges walks all units of a
.debug_aranges byte range (§4.5). -/
def decode_aranges (en : Endianness) (bytes : List Nat) :
    Except DecodeError (List ArangesUnit) :=
  arangesLoop en bytes bytes.length 0

theorem takeEq_byteAt {b1 b2 : List Nat} {n : Nat}
    (h : b1.take n = b2.take n) : ∀ j < n, byteAt b1 j = byteAt b2 j := by
  intro j hj
  have h1 : (b1.take n).get? j = (b2.take n).get? j := by rw [h]
  rwa [List.get?_take hj, List.get?_take hj] at h1

theorem readTuples_ok_spec (bytes : List Nat) (en : Endianness)
    (asize unitEnd : Nat) :
    ∀ fuel cur rs fin, readTuples bytes en asize unitEnd fuel cur = .ok (rs, fin) →
      (∀ r ∈ rs, ¬(r.1 = 0 ∧ r.2 = 0)) ∧
      (0 < asize → readUIntAt bytes en (fin - 2 * asize) asize = some 0 ∧
        readUIntAt bytes en (fin - asize) asize = some 0) ∧
      cur ≤ fin ∧ (0 < asize → fin ≤ unitEnd) := by
  intro fuel
  induction fuel with
  | zero =>
    intro cur rs fin h
    simp [readTuples] at h
  | succ n ih =>
    intro cur rs fin h
    rw [readTuples] at h
    by_cases h0 : asize = 0
    · rw [if_pos h0] at h
      cases h
      refine ⟨by simp, by omega, Nat.le_refl _, by omega⟩
    · rw [if_neg h0] at h
      by_cases hbd : unitEnd < cur + 2 * asize
      · rw [if_pos hbd] at h
        cases h
      · rw [if_neg hbd] at h
        cases ha : readUIntAt bytes en cur asize with
        | none => rw [ha] at h; cases h
        | some a =>
          cases hl : readUIntAt bytes en (cur + asize) asize with
          | none => rw [ha, hl] at h; cases h
          | some l =>
            rw [ha, hl] at h
            simp only at h
            by_cases hz : a = 0 ∧ l = 0
            · rw [if_pos hz] at h
              cases h
              refine ⟨by simp, ?_, by omega, by omega⟩
              intro _
              have e1 : cur + 2 * asize - 2 * asize = cur := by omega
              have e2 : cur + 2 * asize - asize = cur + asize := by omega
              rw [e1, e2, ha, hl, hz.1, hz.2]
              exact ⟨rfl, rfl⟩
            · rw [if_neg hz] at h
              cases hrec : readTuples bytes en asize unitEnd n (cur + 2 * asize) with
              | error e => rw [hrec] at h; cases h
              | ok p =>
                obtain ⟨rest, fin'⟩ := p
                rw [hrec] at h
                cases h
                obtain ⟨ih1, ih2, ih3, ih4⟩ := ih _ _ _ hrec
                refine ⟨?_, ih2, by omega, ih4⟩
                intro r hr
                rcases List.mem_cons.mp hr with hr | hr
                · subst hr
                  exact hz
                · exact ih1 r hr

theorem readTuples_mem (bytes : List Nat) (en : Endianness)
    (asize unitEnd : Nat) :
    ∀ fuel cur rs fin, readTuples bytes en asize unitEnd fuel cur = .ok (rs, fin) →
      ∀ r ∈ rs, ∃ p, readUIntAt bytes en p asize = some r.1 ∧
        readUIntAt bytes en (p + asize) asize = some r.2 := by
  intro fuel
  induction fuel with
  | zero =>
    intro cur rs fin h
    simp [readTuples] at h
  | succ n ih =>
    intro cur rs fin h
    rw [readTuples] at h
    by_cases h0 : asize = 0
    · rw [if_pos h0] at h
      cases h
      simp
    · rw [if_neg h0] at h
      by_cases hbd : unitEnd < cur + 2 * asize
      · rw [if_pos hbd] at h
        cases h
      · rw [if_neg hbd] at h
        cases ha : readUIntAt bytes en cur asize with
        | none => rw [ha] at h; cases h
        | some a =>
          cases hl : readUIntAt bytes en (cur + asize) asize with
          | none => rw [ha, hl] at h; cases h
          | some l =>
            rw [ha, hl] at h
            simp only at h
            by_cases hz : a = 0 ∧ l = 0
            · rw [if_pos hz] at h
              cases h
              simp
            · rw [if_neg hz] at h
              cases hrec : readTuples bytes en asize unitEnd n (cur + 2 * asize) with
              | error e => rw [hrec] at h; cases h
              | ok p =>
                obtain ⟨rest, fin'⟩ := p
                rw [hrec] at h
                cases h
                intro r hr
                rcases List.mem_cons.mp hr with hr | hr
                · subst hr
                  exact ⟨cur, ha, hl⟩
                · exact ih _ _ _ hrec r hr

theorem readTuples_congr {b1 b2 : List Nat} (en : Endianness)
    {asize unitEnd : Nat} (h : ∀ j < unitEnd, byteAt b1 j = byteAt b2 j) :
    ∀ fuel cur, readTuples b1 en asize unitEnd fuel cur =
      readTuples b2 en asize unitEnd fuel cur := by
  intro fuel
  induction fuel with
  | zero =>
    intro cur
    rfl
  | succ n ih =>
    intro cur
    rw [readTuples, readTuples]
    by_cases h0 : asize = 0
    · rw [if_pos h0, if_pos h0]
    · rw [if_neg h0, if_neg h0]
      by_cases hbd : unitEnd < cur + 2 * asize
      · rw [if_pos hbd, if_pos hbd]
      · rw [if_neg hbd, if_neg hbd]
        have e1 : readUIntAt b1 en cur asize = readUIntAt b2 en cur asize :=
          readUIntAt_congr en h (by omega) (by omega)
        have e2 : readUIntAt b1 en (cur + asize) asize =
            readUIntAt b2 en (cur + asize) asize :=
          readUIntAt_congr en h (by omega) (by omega)
        rw [e1, e2, ih (cur + 2 * asize)]

theorem decodeArangesUnit_parts {en : Endianness} {bytes : List Nat}
    {pos : Nat} {u : ArangesUnit} {next : Nat}
    (h : decodeArangesUnit en bytes pos = .ok (u, next)) :
    next = pos + 4 + u.unit_length ∧ next ≤ bytes.length ∧ pos + 12 ≤ next ∧
    readUIntAt bytes en pos 4 = some u.unit_length ∧
    readUIntAt bytes en (pos + 4) 2 = some u.version ∧
    readUIntAt bytes en (pos + 6) 4 = some u.debug_info_offset ∧
    byteAt bytes (pos + 10) = some u.address_size ∧
    byteAt bytes (pos + 11) = some u.segment_size ∧
    ∃ fin, readTuples bytes en u.address_size next next
      (alignUp (pos + 12) (2 * u.address_size)) = .ok (u.ranges, fin) := by
  unfold decodeArangesUnit at h
  cases hulen : readUIntAt bytes en pos 4 with
  | none => rw [hulen] at h; cases h
  | some ulen =>
    rw [hulen] at h
    simp only at h
    by_cases hg : pos + 4 + ulen ≤ bytes.length ∧ pos + 12 ≤ pos + 4 + ulen
    · rw [if_pos hg] at h
      cases hver : readUIntAt bytes en (pos + 4) 2 with
      | none => rw [hver] at h; cases h
      | some ver =>
        cases hdio : readUIntAt bytes en (pos + 6) 4 with
        | none => rw [hver, hdio] at h; cases h
        | some dio =>
          cases hasz : byteAt bytes (pos + 10) with
          | none => rw [hver, hdio, hasz] at h; cases h
          | some asize =>
            cases hssz : byteAt bytes (pos + 11) with
            | none => rw [hver, hdio, hasz, hssz] at h; cases h
            | some ssize =>
              rw [hver, hdio, hasz, hssz] at h
              simp only at h
              cases htup : readTuples bytes en asize (pos + 4 + ulen)
                  (pos + 4 + ulen) (alignUp (pos + 12) (2 * asize)) with
              | error e => rw [htup] at h; cases h
              | ok p =>
                obtain ⟨rs, fin⟩ := p
                rw [htup] at h
                cases h
                exact ⟨rfl, hg.1, hg.2, by simpa using hulen, by simpa using hver,
                  by simpa using hdio, by simpa using hasz, by simpa using hssz,
                  fin, by simpa using htup⟩
    · rw [if_neg hg] at h
      cases h

theorem decodeArangesUnit_congr {en : Endianness} {bytes : List Nat}
    {pos : Nat} {u : ArangesUnit} {next : Nat}
    (h : decodeArangesUnit en bytes pos = .ok (u, next)) :
    ∀ bytes2, bytes.take next = bytes2.take next →
      decodeArangesUnit en bytes2 pos = .ok (u, next) := by
  obtain ⟨hnext, hlen, h12, hulen, hver, hdio, hasz, hssz, fin, htup⟩ :=
    decodeArangesUnit_parts h
  intro bytes2 ht
  have hlen2 : next ≤ bytes2.length := by
    have hl := congrArg List.length ht
    simp only [List.length_take] at hl
    omega
  have hby := takeEq_byteAt ht
  have e1 : readUIntAt bytes2 en pos 4 = some u.unit_length := by
    rw [← readUIntAt_congr en hby (by omega) (by omega)]
    exact hulen
  have e2 : readUIntAt bytes2 en (pos + 4) 2 = some u.version := by
    rw [← readUIntAt_congr en hby (by omega) (by omega)]
    exact hver
  have e3 : readUIntAt bytes2 en (pos + 6) 4 = some u.debug_info_offset := by
    rw [← readUIntAt_congr en hby (by omega) (by omega)]
    exact hdio
  have e4 : byteAt bytes2 (pos + 10) = some u.address_size := by
    rw [← hby (pos + 10) (by omega)]
    exact hasz
  have e5 : byteAt bytes2 (pos + 11) = some u.segment_size := by
    rw [← hby (pos + 11) (by omega)]
    exact hssz
  have e6 : readTuples bytes2 en u.address_size next next
      (alignUp (pos + 12) (2 * u.address_size)) = .ok (u.ranges, fin) := by
    rw [← readTuples_congr en hby next (alignUp (pos + 12) (2 * u.address_size))]
    exact htup
  rw [decodeArangesUnit, e1]
  simp only
  rw [if_pos (by omega), e2, e3, e4, e5]
  simp only
  rw [show pos + 4 + u.unit_length = next by omega, e6]

/-- C6: for every successfully decoded aranges unit, the unit ends
exactly unit_length bytes past the length field (and inside the buffer);
the decode depends only on bytes before that end, so no byte past the
unit's extent is read; tuple reading begins at the offset padded up to a
boundary of twice the address size and stops at the explicit
zero-address zero-length terminator; and that terminator is not
included in the returned ranges. -/
theorem decode_aranges_unit_bounded (en : Endianness) (bytes : List Nat)
    (pos : Nat) (u : ArangesUnit) (next : Nat)
    (h : decodeArangesUnit en bytes pos = .ok (u, next)) :
    next = pos + 4 + u.unit_length ∧ next ≤ bytes.length ∧
    (∀ bytes2, bytes.take next = bytes2.take next →
      decodeArangesUnit en bytes2 pos = .ok (u, next)) ∧
    (∃ fin, readTuples bytes en u.address_size next next
        (alignUp (pos + 12) (2 * u.address_size)) = .ok (u.ranges, fin) ∧
      (0 < u.address_size →
        readUIntAt bytes en (fin - 2 * u.address_size) u.address_size = some 0 ∧
        readUIntAt bytes en (fin - u.address_size) u.address_size = some 0)) ∧
    (∀ r ∈ u.ranges, ¬(r.1 = 0 ∧ r.2 = 0)) := by
  obtain ⟨hnext, hlen, h12, hulen, hver, hdio, hasz, hssz, fin, htup⟩ :=
    decodeArangesUnit_parts h
  obtain ⟨hmem, hterm, hcur, hfin⟩ :=
    readTuples_ok_spec bytes en u.address_size next next _ _ _ htup
  exact ⟨hnext, hlen, decodeArangesUnit_congr h, ⟨fin, htup, hterm⟩, hmem⟩

/-- C6 witness: the unit-extent conclusions instantiated on a concrete
32-byte aranges unit holding one (1, 2) tuple before its terminator. -/
theorem decode_aranges_unit_bounded_witness :
    (32 : Nat) = 0 + 4 + (ArangesUnit.mk 28 2 0 4 0 [(1, 2)]).unit_length ∧
    (32 : Nat) ≤ ([28, 0, 0, 0, 2, 0, 0, 0, 0, 0, 4, 0, 9, 9, 9, 9,
      1, 0, 0, 0, 2, 0, 0, 0, 0, 0, 0, 0, 0, 0, 0, 0] : List Nat).length :=
  ⟨(decode_aranges_unit_bounded Endianness.little
      [28, 0, 0, 0, 2, 0, 0, 0, 0, 0, 4, 0, 9, 9, 9, 9,
       1, 0, 0, 0, 2, 0, 0, 0, 0, 0, 0, 0, 0, 0, 0, 0] 0
      (ArangesUnit.mk 28 2 0 4 0 [(1, 2)]) 32 (by rfl)).1,
   (decode_aranges_unit_bounded Endianness.little
      [28, 0, 0, 0, 2, 0, 0, 0, 0, 0, 4, 0, 9, 9, 9, 9,
       1, 0, 0, 0, 2, 0, 0, 0, 0, 0, 0, 0, 0, 0, 0, 0] 0
      (ArangesUnit.mk 28 2 0 4 0 [(1, 2)]) 32 (by rfl)).2.1⟩

theorem arangesLoop_mem (en : Endianness) (bytes : List Nat) :
    ∀ fuel pos units, arangesLoop en bytes fuel pos = .ok units →
      ∀ u ∈ units, ∃ p next, decodeArangesUnit en bytes p = .ok (u, next) := by
  intro fuel
  induction fuel with
  | zero =>
    intro pos units h
    cases h
    simp
  | succ n ih =>
    intro pos units h
    rw [arangesLoop] at h
    by_cases hp : pos < bytes.length
    · rw [if_pos hp] at h
      cases hdec : decodeArangesUnit en bytes pos with
      | error e => rw [hdec] at h; cases h
      | ok p =>
        obtain ⟨u0, nx⟩ := p
        rw [hdec] at h
        simp only at h
        cases hrec : arangesLoop en bytes n nx with
        | error e => rw [hrec] at h; cases h
        | ok rest =>
          rw [hrec] at h
          cases h
          intro u hu
          rcases List.mem_cons.mp hu with hu | hu
          · subst hu
            exact ⟨pos, nx, hdec⟩
          · exact ih nx rest hrec u hu
    · rw [if_neg hp] at h
      cases h
      simp

/-- C7: decode_aranges over an empty byte range returns the empty unit
sequence and no error; and the decoder never synthesizes ranges it did
not read — every range tuple of every returned unit is literally present
in the input bytes at some position. -/
theorem decode_aranges_empty_and_faithful (en : Endianness) :
    decode_aranges en [] = .ok [] ∧
    ∀ bytes units, decode_aranges en bytes = .ok units →
      ∀ u ∈ units, ∀ r ∈ u.ranges, ∃ p,
        readUIntAt bytes en p u.address_size = some r.1 ∧
        readUIntAt bytes en (p + u.address_size) u.address_size = some r.2 := by
  refine ⟨rfl, ?_⟩
  intro bytes units h u hu r hr
  obtain ⟨p, nx, hdec⟩ := arangesLoop_mem en bytes _ _ _ h u hu
  obtain ⟨-, -, -, -, -, -, -, -, fin, htup⟩ := decodeArangesUnit_parts hdec
  exact readTuples_mem bytes en _ _ _ _ _ _ htup r hr

/-- C7 witness: the faithfulness conclusion instantiated on the concrete
one-unit section and its (1, 2) range tuple. -/
theorem decode_aranges_empty_and_faithful_witness :
    ∃ p, readUIntAt [28, 0, 0, 0, 2, 0, 0, 0, 0, 0, 4, 0, 9, 9, 9, 9,
        1, 0, 0, 0, 2, 0, 0, 0, 0, 0, 0, 0, 0, 0, 0, 0]
        Endianness.little p 4 = some 1 ∧
      readUIntAt [28, 0, 0, 0, 2, 0, 0, 0, 0, 0, 4, 0, 9, 9, 9, 9,
        1, 0, 0, 0, 2, 0, 0, 0, 0, 0, 0, 0, 0, 0, 0, 0]
        Endianness.little (p + 4) 4 = some 2 :=
  (decode_aranges_empty_and_faithful Endianness.little).2
    [28, 0, 0, 0, 2, 0, 0, 0, 0, 0, 4, 0, 9, 9, 9, 9,
     1, 0, 0, 0, 2, 0, 0, 0, 0, 0, 0, 0, 0, 0, 0, 0]
    [ArangesUnit.mk 28 2 0 4 0 [(1, 2)]] (by rfl)
    (ArangesUnit.mk 28 2 0 4 0 [(1, 2)]) (by simp) (1, 2) (by simp)

/-!
## Line-Number Program Decoder (§4.6)
-/

/-- Positional ULEB128 read: value and next position, or MalformedVarint. -/
def readULEBAt (bytes : List Nat) (pos : Nat) : Except DecodeError (Nat × Nat) :=
  ulebAux bytes 10 pos 0 0

/-- Positional SLEB128 read: value and next position, or MalformedVarint. -/
def readSLEBAt (bytes : List Nat) (pos : Nat) : Except DecodeError (Int × Nat) :=
  slebAux bytes 10 pos 0 0

/-- Modelled from the spec: consume and discard a counted sequence of
ULEB128 operands — the forward-compatibility skip for opcodes the
decoder does not recognize (§4.6). -/
def skipULEBs (bytes : List Nat) : Nat → Nat → Except DecodeError Nat
  | 0, pos => .ok pos
  | n + 1, pos =>
    match readULEBAt bytes pos with
    | .ok (_, p) => skipULEBs bytes n p
    | .error _ => .error .truncatedProgram

/-- Modelled from the spec: the line-number program header parameters the
state machine consumes (§4.6). -/
structure LineHeader where
  minimum_instruction_length : Nat
  default_is_stmt : Bool
  line_base : Int
  line_range : Nat
  opcode_base : Nat
  standard_opcode_lengths : List Nat
  address_size : Nat
deriving DecidableEq

/-- Modelled from the spec: the line-number state-machine registers
(§4.6). -/
structure LineState where
  address : Nat
  file : Nat
  line : Int
  column : Nat
  is_statement : Bool
  basic_block : Bool
  end_sequence : Bool
  prologue_end : Bool
  epilogue_begin : Bool
  isa : Nat
  discriminator : Nat
deriving DecidableEq

/-- Modelled from the spec: one emitted line-table row (§3). -/
structure LineTableRow where
  address : Nat
  file_index : Nat
  line : Int
  column : Nat
  is_statement : Bool
  end_sequence : Bool
deriving DecidableEq

/-- Modelled from the spec: program-defined register defaults — line=1,
file=1, is_statement from the header, everything else 0/false (§4.6). -/
def initState (h : LineHeader) : LineState :=
  ⟨0, 1, 1, 0, h.default_is_stmt, false, false, false, false, 0, 0⟩

/-- Project the current registers into an emitted row. -/
def emitRow (s : LineState) : LineTableRow :=
  ⟨s.address, s.file, s.line, s.column, s.is_statement, s.end_sequence⟩

/-- Modelled from the spec: the combined address/line advance a special
opcode encodes, from the header's line_base, line_range and
minimum_instruction_length parameters (§4.6). -/
def specialAdvances (h : LineHeader) (v : Nat) : Nat × Int :=
  ((v - h.opcode_base) / h.line_range * h.minimum_instruction_length,
   h.line_base + ((v - h.opcode_base) % h.line_range : Nat))

/-- Modelled from the spec: one transition of the line-number state
machine (§4.6) — special opcodes append a row from a one-byte combined
advance; the twelve DWARF-standard opcodes get their fixed semantics;
a standard opcode past the recognized set has its ULEB128 operands
(counted by the header's standard_opcode_lengths table) consumed and
discarded; extended opcodes (opcode 0) carry a ULEB128 instruction
length, with end_sequence and set_address recognized and everything else
skipped over the declared length. -/
def stepLine (h : LineHeader) (en : Endianness) (bytes : List Nat) (pos : Nat)
    (s : LineState) :
    Except DecodeError (LineState × List LineTableRow × Nat) :=
  match byteAt bytes pos with
  | none => .error .truncatedProgram
  | some op =>
    if op = 0 then
      match readULEBAt bytes (pos + 1) with
      | .error _ => .error .truncatedProgram
      | .ok (len, p1) =>
        if p1 + len ≤ bytes.length then
          if len = 0 then .ok (s, [], p1)
          else
            match byteAt bytes p1 with
            | none => .error .truncatedProgram
            | some sub =>
              if sub = 1 then
                .ok (initState h, [emitRow { s with end_sequence := true }],
                  p1 + len)
              else if sub = 2 then
                match readUIntAt bytes en (p1 + 1) h.address_size with
                | some addr => .ok ({ s with address := addr }, [], p1 + len)
                | none => .error .truncatedProgram
              else .ok (s, [], p1 + len)
        else .error .truncatedProgram
    else if op < h.opcode_base then
      if op = 1 then
        .ok ({ s with
               basic_block := false
               prologue_end := false
               epilogue_begin := false
               discriminator := 0 }, [emitRow s], pos + 1)
      else if op = 2 then
        match readULEBAt bytes (pos + 1) with
        | .ok (n, p) =>
          .ok ({ s with address :=
            s.address + n * h.minimum_instruction_length }, [], p)
        | .error _ => .error .truncatedProgram
      else if op = 3 then
        match readSLEBAt bytes (pos + 1) with
        | .ok (d, p) => .ok ({ s with line := s.line + d }, [], p)
        | .error _ => .error .truncatedProgram
      else if op = 4 then
        match readULEBAt bytes (pos + 1) with
        | .ok (n, p) => .ok ({ s with file := n }, [], p)
        | .error _ => .error .truncatedProgram
      else if op = 5 then
        match readULEBAt bytes (pos + 1) with
        | .ok (n, p) => .ok ({ s with column := n }, [], p)
        | .error _ => .error .truncatedProgram
      else if op = 6 then
        .ok ({ s with is_statement := !s.is_statement }, [], pos + 1)
      else if op = 7 then
        .ok ({ s with basic_block := true }, [], pos + 1)
      else if op = 8 then
        .ok ({ s with address := s.address + (specialAdvances h 255).1 }, [],
          pos + 1)
      else if op = 9 then
        match readUIntAt bytes en (pos + 1) 2 with
        | some n => .ok ({ s with address := s.address + n }, [], pos + 3)
        | none => .error .truncatedProgram
      else if op = 10 then
        .ok ({ s with prologue_end := true }, [], pos + 1)
      else if op = 11 then
        .ok ({ s with epilogue_begin := true }, [], pos + 1)
      else if op = 12 then
        match readULEBAt bytes (pos + 1) with
        | .ok (n, p) => .ok ({ s with isa := n }, [], p)
        | .error _ => .error .truncatedProgram
      else
        match skipULEBs bytes (h.standard_opcode_lengths.getD (op - 1) 0)
            (pos + 1) with
        | .ok p => .ok (s, [], p)
        | .error _ => .error .truncatedProgram
    else
      .ok ({ s with
             address := s.address + (specialAdvances h op).1
             line := s.line + (specialAdvances h op).2
             basic_block := false
             prologue_end := false
             epilogue_begin := false
             discriminator := 0 },
        [emitRow { s with
             address := s.address + (specialAdvances h op).1
             line := s.line + (specialAdvances h op).2 }], pos + 1)

/-- Modelled from the spec: the opcode-walking loop.  Fuel only bounds
the recursion; every transition consumes at least one byte, so a fuel of
the program's length plus one never runs out. -/
def lineLoop (h : LineHeader) (en : Endianness) (bytes : List Nat) :
    Nat → Nat → LineState → Except DecodeError (List LineTableRow)
  | 0, _, _ => .error .truncatedProgram
  | fuel + 1, pos, s =>
    if pos < bytes.length then
      match stepLine h en bytes pos s with
      | .ok (s', rows, pos') =>
        match lineLoop h en bytes fuel pos' s' with
        | .ok rest => .ok (rows ++ rest)
        | .error e => .error e
      | .error e => .error e
    else .ok []

/-- Modelled from the spec: run a whole line-number program — fail with
InvalidHeader when opcode_base is 0 or the standard_opcode_lengths table
is shorter than opcode_base - 1, otherwise interpret the byte stream
from the initial state (§4.6). -/
def runLineProgram (h : LineHeader) (en : Endianness) (bytes : List Nat) :
    Except DecodeError (List LineTableRow) :=
  if h.opcode_base = 0 ∨ h.standard_opcode_lengths.length < h.opcode_base - 1
  then .error .invalidHeader
  else lineLoop h en bytes (bytes.length + 1) 0 (initState h)

/-- C3: for a header with line_base = -5, line_range = 14,
opcode_base = 13 and any special opcode byte v ≥ 13, the decoded
transition appends exactly one row whose advances satisfy
line_advance = line_base + ((v - opcode_base) % line_range) and
address_advance = ((v - opcode_base) / line_range) *
minimum_instruction_length. -/
theorem special_opcode_decode (h : LineHeader) (en : Endianness)
    (bytes : List Nat) (pos : Nat) (s : LineState) (v : Nat)
    (hb : byteAt bytes pos = some v) (hob : h.opcode_base = 13)
    (hlb : h.line_base = -5) (hlr : h.line_range = 14) (hv : 13 ≤ v) :
    ∃ s' row, stepLine h en bytes pos s = .ok (s', [row], pos + 1) ∧
      row.address = s.address + (v - 13) / 14 * h.minimum_instruction_length ∧
      row.line = s.line + (-5 + (((v - 13) % 14 : Nat) : Int)) ∧
      s'.address = row.address ∧ s'.line = row.line ∧
      row.end_sequence = s.end_sequence := by
  unfold stepLine
  rw [hb]
  simp only
  rw [if_neg (by omega), if_neg (by omega)]
  refine ⟨_, _, rfl, ?_, ?_, ?_, ?_, ?_⟩
  · simp [emitRow, specialAdvances, hob, hlr]
  · simp [emitRow, specialAdvances, hob, hlb, hlr]
  · simp [emitRow]
  · simp [emitRow]
  · simp [emitRow]

/-- A DWARF-typical header used to instantiate the line-machine
theorems: minimum_instruction_length 3, default_is_stmt true,
line_base -5, line_range 14, opcode_base 13, the twelve standard operand
counts, address size 4. -/
def sampleLineHeader : LineHeader :=
  ⟨3, true, -5, 14, 13, [0, 1, 1, 1, 1, 0, 0, 0, 1, 0, 0, 1], 4⟩

/-- C3 witness: the special-opcode property instantiated on opcode byte
30 under the sample header. -/
theorem special_opcode_decode_witness :
    ∃ s' row, stepLine sampleLineHeader Endianness.little [30] 0
        (initState sampleLineHeader) = .ok (s', [row], 0 + 1) ∧
      row.address = (initState sampleLineHeader).address +
        (30 - 13) / 14 * sampleLineHeader.minimum_instruction_length ∧
      row.line = (initState sampleLineHeader).line +
        (-5 + (((30 - 13) % 14 : Nat) : Int)) ∧
      s'.address = row.address ∧ s'.line = row.line ∧
      row.end_sequence = (initState sampleLineHeader).end_sequence :=
  special_opcode_decode sampleLineHeader Endianness.little [30] 0
    (initState sampleLineHeader) 30 (by rfl) (by rfl) (by rfl) (by rfl)
    (by omega)

/-- C4: the decoder does not fail on an opcode it does not semantically
interpret.  An unrecognized standard opcode (13 up to opcode_base - 1)
has its ULEB128 operands, counted by the header's
standard_opcode_lengths table, consumed and discarded, leaving the state
untouched; an unrecognized extended opcode is skipped over its declared
instruction length, leaving the state untouched; decoding then continues
at the following opcode. -/
theorem unknown_opcode_skipped (h : LineHeader) (en : Endianness)
    (bytes : List Nat) (pos : Nat) (s : LineState) :
    (∀ op p', byteAt bytes pos = some op → 13 ≤ op → op < h.opcode_base →
      skipULEBs bytes (h.standard_opcode_lengths.getD (op - 1) 0) (pos + 1) =
        .ok p' →
      stepLine h en bytes pos s = .ok (s, [], p')) ∧
    (∀ len p1 sub, byteAt bytes pos = some 0 →
      readULEBAt bytes (pos + 1) = .ok (len, p1) → p1 + len ≤ bytes.length →
      0 < len → byteAt bytes p1 = some sub → sub ≠ 1 → sub ≠ 2 →
      stepLine h en bytes pos s = .ok (s, [], p1 + len)) := by
  constructor
  · intro op p' hb hge hlt hskip
    unfold stepLine
    rw [hb]
    simp only
    have hx0 : ¬ op = 0 := by omega
    have hx1 : ¬ op = 1 := by omega
    have hx2 : ¬ op = 2 := by omega
    have hx3 : ¬ op = 3 := by omega
    have hx4 : ¬ op = 4 := by omega
    have hx5 : ¬ op = 5 := by omega
    have hx6 : ¬ op = 6 := by omega
    have hx7 : ¬ op = 7 := by omega
    have hx8 : ¬ op = 8 := by omega
    have hx9 : ¬ op = 9 := by omega
    have hx10 : ¬ op = 10 := by omega
    have hx11 : ¬ op = 11 := by omega
    have hx12 : ¬ op = 12 := by omega
    rw [if_neg hx0, if_pos hlt, if_neg hx1, if_neg hx2, if_neg hx3, if_neg hx4,
      if_neg hx5, if_neg hx6, if_neg hx7, if_neg hx8, if_neg hx9, if_neg hx10,
      if_neg hx11, if_neg hx12, hskip]
  · intro len p1 sub hb hu hle hlen hsub hs1 hs2
    unfold stepLine
    rw [hb]
    simp only
    rw [if_pos True.intro, hu]
    simp only
    rw [if_pos hle, if_neg (by omega), hsub]
    simp only
    rw [if_neg hs1, if_neg hs2]

/-- A header with opcode_base 14 whose standard_opcode_lengths table
declares two ULEB128 operands for the unrecognized standard opcode 13. -/
def extendedLineHeader : LineHeader :=
  ⟨1, true, -5, 14, 14, [0, 1, 1, 1, 1, 0, 0, 0, 1, 0, 0, 1, 2], 4⟩

/-- C4 witness: a concrete unrecognized standard opcode (13, two ULEB128
operands skipped) and a concrete unrecognized extended opcode (sub-code
99 skipped over its declared length), both decoded without error and
without touching the state. -/
theorem unknown_opcode_skipped_witness :
    stepLine extendedLineHeader Endianness.little [13, 5, 7] 0
      (initState extendedLineHeader) = .ok (initState extendedLineHeader, [], 3) ∧
    stepLine extendedLineHeader Endianness.little [0, 2, 99, 0] 0
      (initState extendedLineHeader) = .ok (initState extendedLineHeader, [], 4) :=
  ⟨(unknown_opcode_skipped extendedLineHeader Endianness.little [13, 5, 7] 0
      (initState extendedLineHeader)).1 13 3 (by rfl) (by omega) (by decide)
      (by rfl),
   (unknown_opcode_skipped extendedLineHeader Endianness.little [0, 2, 99, 0] 0
      (initState extendedLineHeader)).2 2 2 99 (by rfl) (by rfl) (by decide)
      (by omega) (by rfl) (by omega) (by omega)⟩

/-- C9 counterexample: a program that uses set_address to move the
address backwards mid-sequence produces two consecutive rows of the same
sequence (neither is an end_sequence row) whose addresses decrease,
refuting the claim that addresses are non-decreasing between rows of one
sequence. -/
theorem line_rows_not_monotone :
    runLineProgram
      ⟨1, true, -5, 14, 13, [0, 1, 1, 1, 1, 0, 0, 0, 1, 0, 0, 1], 2⟩
      Endianness.little
      [0, 3, 2, 100, 0, 1, 0, 3, 2, 5, 0, 1, 0, 1, 1] =
      .ok [LineTableRow.mk 100 1 1 0 true false,
        LineTableRow.mk 5 1 1 0 true false,
        LineTableRow.mk 5 1 1 0 true true] ∧
    (LineTableRow.mk 100 1 1 0 true false).end_sequence = false ∧
    (LineTableRow.mk 5 1 1 0 true false).address <
      (LineTableRow.mk 100 1 1 0 true false).address :=
  ⟨rfl, rfl, by decide⟩

/-- Does the opcode at this position denote the extended set_address
instruction?  This is the one transition that may move the address
backwards. -/
def isSetAddr (bytes : List Nat) (pos : Nat) : Bool :=
  match readULEBAt bytes (pos + 1) with
  | .ok (_, p1) => byteAt bytes pos == some 0 && byteAt bytes p1 == some 2
  | .error _ => false

/-- One transition of the machine from a mid-sequence state whose opcode
is not the extended set_address instruction: emitted rows sit between
the incoming and outgoing addresses (a non-end row carries exactly the
outgoing address), the address register never decreases, an
end_sequence row carries the incoming address and resets the state, the
resulting state is again mid-sequence, and at most one row is
emitted. -/
theorem stepLine_monotone (h : LineHeader) (en : Endianness)
    (bytes : List Nat) (pos : Nat) (s s' : LineState)
    (rows : List LineTableRow) (pos' : Nat)
    (hstep : stepLine h en bytes pos s = .ok (s', rows, pos'))
    (hns : isSetAddr bytes pos = false) (hse : s.end_sequence = false) :
    (∀ row ∈ rows, s.address ≤ row.address) ∧
    (∀ row ∈ rows, row.end_sequence = false → row.address = s'.address) ∧
    ((∀ row ∈ rows, row.end_sequence = false) → s.address ≤ s'.address) ∧
    (∀ row ∈ rows, row.end_sequence = true → s' = initState h ∧
      row.address = s.address) ∧
    s'.end_sequence = false ∧
    (rows = [] ∨ ∃ row, rows = [row]) := by
  unfold stepLine at hstep
  cases hb : byteAt bytes pos with
  | none => rw [hb] at hstep; cases hstep
  | some op =>
    rw [hb] at hstep
    simp only at hstep
    by_cases hop0 : op = 0
    · subst hop0
      rw [if_pos rfl] at hstep
      cases hu : readULEBAt bytes (pos + 1) with
      | error e => rw [hu] at hstep; cases hstep
      | ok pr =>
        obtain ⟨len, p1⟩ := pr
        rw [hu] at hstep
        simp only at hstep
        by_cases hple : p1 + len ≤ bytes.length
        · rw [if_pos hple] at hstep
          by_cases hl0 : len = 0
          · rw [if_pos hl0] at hstep
            cases hstep
            exact ⟨by simp, by simp, fun _ => Nat.le_refl _, by simp, hse, Or.inl rfl⟩
          · rw [if_neg hl0] at hstep
            cases hsub : byteAt bytes p1 with
            | none => rw [hsub] at hstep; cases hstep
            | some sub =>
              rw [hsub] at hstep
              simp only at hstep
              by_cases hs1 : sub = 1
              · subst hs1
                rw [if_pos rfl] at hstep
                cases hstep
                refine ⟨?_, ?_, ?_, ?_, rfl, Or.inr ⟨_, rfl⟩⟩
                · intro row hr
                  simp only [List.mem_singleton] at hr
                  subst hr
                  simp [emitRow]
                · intro row hr hfalse
                  simp only [List.mem_singleton] at hr
                  subst hr
                  simp [emitRow] at hfalse
                · intro hall
                  exfalso
                  have hx := hall _ (List.mem_singleton_self _)
                  simp [emitRow] at hx
                · intro row hr _
                  simp only [List.mem_singleton] at hr
                  subst hr
                  exact ⟨rfl, by simp [emitRow]⟩
              · by_cases hs2 : sub = 2
                · subst hs2
                  exfalso
                  have ht : isSetAddr bytes pos = true := by
                    unfold isSetAddr
                    rw [hu]
                    simp [hb, hsub]
                  rw [ht] at hns
                  cases hns
                · rw [if_neg hs1, if_neg hs2] at hstep
                  cases hstep
                  exact ⟨by simp, by simp, fun _ => Nat.le_refl _, by simp, hse, Or.inl rfl⟩
        · rw [if_neg hple] at hstep
          cases hstep
    · rw [if_neg hop0] at hstep
      by_cases hstd : op < h.opcode_base
      · rw [if_pos hstd] at hstep
        by_cases h1 : op = 1
        · subst h1
          rw [if_pos rfl] at hstep
          cases hstep
          refine ⟨?_, ?_, fun _ => Nat.le_refl _, ?_, hse, Or.inr ⟨_, rfl⟩⟩
          · intro row hr
            simp only [List.mem_singleton] at hr
            subst hr
            simp [emitRow]
          · intro row hr _
            simp only [List.mem_singleton] at hr
            subst hr
            simp [emitRow]
          · intro row hr htrue
            simp only [List.mem_singleton] at hr
            subst hr
            simp [emitRow, hse] at htrue
        · rw [if_neg h1] at hstep
          by_cases h2 : op = 2
          · subst h2
            rw [if_pos rfl] at hstep
            cases hu : readULEBAt bytes (pos + 1) with
            | error e => rw [hu] at hstep; cases hstep
            | ok pr =>
              obtain ⟨n, p⟩ := pr
              rw [hu] at hstep
              simp only at hstep
              cases hstep
              exact ⟨by simp, by simp, fun _ => Nat.le_add_right _ _, by simp, hse, Or.inl rfl⟩
          · rw [if_neg h2] at hstep
            by_cases h3 : op = 3
            · subst h3
              rw [if_pos rfl] at hstep
              cases hu : readSLEBAt bytes (pos + 1) with
              | error e => rw [hu] at hstep; cases hstep
              | ok pr =>
                obtain ⟨d, p⟩ := pr
                rw [hu] at hstep
                simp only at hstep
                cases hstep
                exact ⟨by simp, by simp, fun _ => Nat.le_refl _, by simp, hse, Or.inl rfl⟩
            · rw [if_neg h3] at hstep
              by_cases h4 : op = 4
              · subst h4
                rw [if_pos rfl] at hstep
                cases hu : readULEBAt bytes (pos + 1) with
                | error e => rw [hu] at hstep; cases hstep
                | ok pr =>
                  obtain ⟨n, p⟩ := pr
                  rw [hu] at hstep
                  simp only at hstep
                  cases hstep
                  exact ⟨by simp, by simp, fun _ => Nat.le_refl _, by simp, hse, Or.inl rfl⟩
              · rw [if_neg h4] at hstep
                by_cases h5 : op = 5
                · subst h5
                  rw [if_pos rfl] at hstep
                  cases hu : readULEBAt bytes (pos + 1) with
                  | error e => rw [hu] at hstep; cases hstep
                  | ok pr =>
                    obtain ⟨n, p⟩ := pr
                    rw [hu] at hstep
                    simp only at hstep
                    cases hstep
                    exact ⟨by simp, by simp, fun _ => Nat.le_refl _, by simp, hse, Or.inl rfl⟩
                · rw [if_neg h5] at hstep
                  by_cases h6 : op = 6
                  · subst h6
                    rw [if_pos rfl] at hstep
                    cases hstep
                    exact ⟨by simp, by simp, fun _ => Nat.le_refl _, by simp, hse, Or.inl rfl⟩
                  · rw [if_neg h6] at hstep
                    by_cases h7 : op = 7
                    · subst h7
                      rw [if_pos rfl] at hstep
                      cases hstep
                      exact ⟨by simp, by simp, fun _ => Nat.le_refl _, by simp, hse, Or.inl rfl⟩
                    · rw [if_neg h7] at hstep
                      by_cases h8 : op = 8
                      · subst h8
                        rw [if_pos rfl] at hstep
                        cases hstep
                        exact ⟨by simp, by simp, fun _ => Nat.le_add_right _ _, by simp, hse, Or.inl rfl⟩
                      · rw [if_neg h8] at hstep
                        by_cases h9 : op = 9
                        · subst h9
                          rw [if_pos rfl] at hstep
                          cases hv : readUIntAt bytes en (pos + 1) 2 with
                          | none => rw [hv] at hstep; cases hstep
                          | some n =>
                            rw [hv] at hstep
                            simp only at hstep
                            cases hstep
                            exact ⟨by simp, by simp, fun _ => Nat.le_add_right _ _, by simp, hse, Or.inl rfl⟩
                        · rw [if_neg h9] at hstep
                          by_cases h10 : op = 10
                          · subst h10
                            rw [if_pos rfl] at hstep
                            cases hstep
                            exact ⟨by simp, by simp, fun _ => Nat.le_refl _, by simp, hse, Or.inl rfl⟩
                          · rw [if_neg h10] at hstep
                            by_cases h11 : op = 11
                            · subst h11
                              rw [if_pos rfl] at hstep
                              cases hstep
                              exact ⟨by simp, by simp, fun _ => Nat.le_refl _, by simp, hse, Or.inl rfl⟩
                            · rw [if_neg h11] at hstep
                              by_cases h12 : op = 12
                              · subst h12
                                rw [if_pos rfl] at hstep
                                cases hu : readULEBAt bytes (pos + 1) with
                                | error e => rw [hu] at hstep; cases hstep
                                | ok pr =>
                                  obtain ⟨n, p⟩ := pr
                                  rw [hu] at hstep
                                  simp only at hstep
                                  cases hstep
                                  exact ⟨by simp, by simp, fun _ => Nat.le_refl _, by simp, hse, Or.inl rfl⟩
                              · rw [if_neg h12] at hstep
                                cases hsk : skipULEBs bytes
                                    (h.standard_opcode_lengths.getD (op - 1) 0)
                                    (pos + 1) with
                                | error e => rw [hsk] at hstep; cases hstep
                                | ok p =>
                                  rw [hsk] at hstep
                                  simp only at hstep
                                  cases hstep
                                  exact ⟨by simp, by simp, fun _ => Nat.le_refl _, by simp, hse, Or.inl rfl⟩
      · rw [if_neg hstd] at hstep
        cases hstep
        refine ⟨?_, ?_, fun _ => Nat.le_add_right _ _, ?_, hse, Or.inr ⟨_, rfl⟩⟩
        · intro row hr
          simp only [List.mem_singleton] at hr
          subst hr
          simp [emitRow]
        · intro row hr _
          simp only [List.mem_singleton] at hr
          subst hr
          simp [emitRow]
        · intro row hr htrue
          simp only [List.mem_singleton] at hr
          subst hr
          simp [emitRow, hse] at htrue

theorem lineLoop_chain (h : LineHeader) (en : Endianness) (bytes : List Nat)
    (hns : ∀ p < bytes.length, isSetAddr bytes p = false) :
    ∀ fuel pos s rows, s.end_sequence = false →
      lineLoop h en bytes fuel pos s = .ok rows →
      List.Chain' (fun r1 r2 => r1.end_sequence = false →
        r1.address ≤ r2.address) rows ∧
      (∀ r0, rows.head? = some r0 → s.address ≤ r0.address) := by
  intro fuel
  induction fuel with
  | zero =>
    intro pos s rows hse hrun
    simp [lineLoop] at hrun
  | succ n ih =>
    intro pos s rows hse hrun
    rw [lineLoop] at hrun
    by_cases hp : pos < bytes.length
    · rw [if_pos hp] at hrun
      cases hstep : stepLine h en bytes pos s with
      | error e => rw [hstep] at hrun; cases hrun
      | ok t =>
        obtain ⟨s', t2⟩ := t
        obtain ⟨rows1, pos'⟩ := t2
        rw [hstep] at hrun
        simp only at hrun
        cases hrec : lineLoop h en bytes n pos' s' with
        | error e => rw [hrec] at hrun; cases hrun
        | ok rest =>
          rw [hrec] at hrun
          cases hrun
          obtain ⟨ha, he, hb, hc, hder, hshape⟩ :=
            stepLine_monotone h en bytes pos s s' rows1 pos' hstep
              (hns pos hp) hse
          obtain ⟨ihchain, ihhead⟩ := ih pos' s' rest hder hrec
          rcases hshape with hnil | ⟨row, hone⟩
          · subst hnil
            simp only [List.nil_append]
            refine ⟨ihchain, ?_⟩
            intro r0 hr0
            exact Nat.le_trans (hb (by simp)) (ihhead r0 hr0)
          · subst hone
            simp only [List.singleton_append]
            constructor
            · rw [List.chain'_cons']
              refine ⟨?_, ihchain⟩
              intro y hy hrowend
              rw [he row (by simp) hrowend]
              exact ihhead y hy
            · intro r0 hr0
              simp only [List.head?_cons, Option.some.injEq] at hr0
              subst hr0
              exact ha row (by simp)
    · rw [if_neg hp] at hrun
      cases hrun
      exact ⟨List.chain'_nil, by simp⟩

/-- C9 (amended): the address is non-decreasing from each row to the
next within one sequence — proved as stated for every program free of
the extended set_address instruction, the one opcode that may move the
address anywhere — and per transition of any program: a non-set_address
opcode fired from a mid-sequence state emits rows bounded below by the
incoming address, carries the outgoing address on every non-end row,
never decreases the address register, and an end_sequence row carries
the incoming address and resets the state to the initial state, so the
following sequence may begin at any address. -/
theorem line_rows_monotone (h : LineHeader) (en : Endianness)
    (bytes : List Nat) :
    (∀ rows, (∀ p < bytes.length, isSetAddr bytes p = false) →
      runLineProgram h en bytes = .ok rows →
      List.Chain' (fun r1 r2 => r1.end_sequence = false →
        r1.address ≤ r2.address) rows) ∧
    (∀ pos s s' rows pos',
      stepLine h en bytes pos s = .ok (s', rows, pos') →
      isSetAddr bytes pos = false → s.end_sequence = false →
      (∀ row ∈ rows, s.address ≤ row.address) ∧
      (∀ row ∈ rows, row.end_sequence = false → row.address = s'.address) ∧
      ((∀ row ∈ rows, row.end_sequence = false) → s.address ≤ s'.address) ∧
      (∀ row ∈ rows, row.end_sequence = true → s' = initState h ∧
        row.address = s.address) ∧
      s'.end_sequence = false) := by
  constructor
  · intro rows hns hrun
    unfold runLineProgram at hrun
    split at hrun
    · cases hrun
    · exact (lineLoop_chain h en bytes hns (bytes.length + 1) 0
        (initState h) rows rfl hrun).1
  · intro pos s s' rows pos' hstep hnsa hse
    obtain ⟨ha, he, hb, hc, hd, -⟩ :=
      stepLine_monotone h en bytes pos s s' rows pos' hstep hnsa hse
    exact ⟨ha, he, hb, hc, hd⟩

/-- C9 witness: the run-level monotonicity conclusion applied to the
concrete set_address-free program copy, special opcode 30, end_sequence
under the sample header. -/
theorem line_rows_monotone_witness :
    List.Chain' (fun r1 r2 => r1.end_sequence = false →
      r1.address ≤ r2.address)
      [LineTableRow.mk 0 1 1 0 true false,
       LineTableRow.mk 3 1 (-1) 0 true false,
       LineTableRow.mk 3 1 (-1) 0 true true] :=
  (line_rows_monotone sampleLineHeader Endianness.little [1, 30, 0, 1, 1]).1
    [LineTableRow.mk 0 1 1 0 true false,
     LineTableRow.mk 3 1 (-1) 0 true false,
     LineTableRow.mk 3 1 (-1) 0 true true] (by decide) (by rfl)

end ElfSpec
